import Mathlib

/-!
Verification of the path-generation core of `GBM_ABM.py` (function
`GeneratePaths`), which simulates Arithmetic Brownian Motion paths
`X` and their exponential transform `S = exp X` on a uniform time grid.

The embedding follows the source line by line:

* `np.random.seed(72)` / `np.random.normal(0,1,[NPaths,NSteps])` — the
  global generator state is a seed together with a position in the draw
  stream; the actual normal-variate stream is an arbitrary fixed function
  `gauss : ℕ → ℕ → ℝ` (seed ↦ position ↦ draw), universally quantified in
  every theorem, since the generator itself lives in the numpy library.
* `np.mean` / `np.std` — arithmetic mean and population standard
  deviation (numpy default `ddof = 0`).
* the in-place standardization `Z[:,i] = (Z[:,i] - mean) / std` touches
  column `i` exactly once, right before its only use, so it is embedded
  as the per-column function `Zcol`.
* floating-point arithmetic is embedded as real arithmetic;
  `np.power(dt, 0.5)` is `Real.sqrt dt` (`dt ≥ 0` on valid inputs).
-/

namespace GBM

/-- State of the global `np.random` generator: current seed and position
in the stream of draws. -/
structure RNG where
  seed : ℕ
  pos : ℕ

/-- `np.random.seed(s)`: reset the global generator to seed `s`. -/
def npRandomSeed (s : ℕ) : RNG := ⟨s, 0⟩

/-- `np.random.normal(0.0, 1.0, [NPaths, NSteps])`: an `NPaths × NSteps`
matrix of draws from the stream of the current state, together with the
advanced generator state.  Entry `(k, i)` is draw number
`pos + k * NSteps + i` of the seed's stream (row-major order). -/
def npRandomNormal (gauss : ℕ → ℕ → ℝ) (st : RNG) (NPaths NSteps : ℕ) :
    (ℕ → ℕ → ℝ) × RNG :=
  (fun k i => gauss st.seed (st.pos + k * NSteps + i),
   ⟨st.seed, st.pos + NPaths * NSteps⟩)

/-- `np.mean` of the first `n` entries of a vector. -/
noncomputable def npMean (n : ℕ) (v : ℕ → ℝ) : ℝ := (∑ k ∈ Finset.range n, v k) / n

/-- `np.std` of the first `n` entries of a vector: population standard
deviation (`ddof = 0`, the numpy default). -/
noncomputable def npStd (n : ℕ) (v : ℕ → ℝ) : ℝ :=
  Real.sqrt ((∑ k ∈ Finset.range n, (v k - npMean n v) ^ 2) / n)

/-- Column `i` of `Z` as used in the advance step: standardized
(`(Z[:,i] - np.mean(Z[:,i])) / np.std(Z[:,i])`) when `NPaths > 1`,
the raw draw otherwise.  This is the value of `Z[k, i]` after the
in-place update guarded by `if NPaths > 1`. -/
noncomputable def Zcol (NPaths : ℕ) (Z : ℕ → ℕ → ℝ) (i k : ℕ) : ℝ :=
  if 1 < NPaths then
    (Z k i - npMean NPaths fun m => Z m i) / npStd NPaths fun m => Z m i
  else Z k i

/-- Value `X[k, j]` produced by the loop: `X[:,0] = np.log(S_0)` and
`X[:,i+1] = X[:,i] + (r - 0.5 * sigma**2) * dt + sigma * np.power(dt,0.5) * Z[:,i]`. -/
noncomputable def Xval (NPaths : ℕ) (Z : ℕ → ℕ → ℝ) (dt r sigma S_0 : ℝ)
    (k : ℕ) : ℕ → ℝ
  | 0 => Real.log S_0
  | i + 1 =>
      Xval NPaths Z dt r sigma S_0 k i + (r - 0.5 * sigma ^ 2) * dt +
        sigma * Real.sqrt dt * Zcol NPaths Z i k

/-- Value `time[j]` produced by the loop: `time[0] = 0` (from `np.zeros`)
and `time[i+1] = time[i] + dt`. -/
noncomputable def timeVal (dt : ℝ) : ℕ → ℝ
  | 0 => 0
  | i + 1 => timeVal dt i + dt

/-- The dictionary `{"time": time, "X": X, "S": S}` returned by
`GeneratePaths`. -/
structure Paths where
  time : List ℝ
  X : List (List ℝ)
  S : List (List ℝ)

/-- `GeneratePaths(NPaths, NSteps, T, r, sigma, S_0)`.  Takes the incoming
global generator state `st` (immediately overwritten by `np.random.seed(72)`)
and returns the result bundle together with the generator state after the
call.  `dt = T / float(NSteps)`; `S = np.exp(X)` element-wise. -/
noncomputable def GeneratePaths (gauss : ℕ → ℕ → ℝ) ( _st : RNG)
    (NPaths NSteps : ℕ) (T r sigma S_0 : ℝ) : Paths × RNG :=
  let st0 := npRandomSeed 72
  let draw := npRandomNormal gauss st0 NPaths NSteps
  let Z := draw.1
  let dt := T / (NSteps : ℝ)
  ({ time := (List.range (NSteps + 1)).map fun j => timeVal dt j
     X := (List.range NPaths).map fun k =>
       (List.range (NSteps + 1)).map fun j => Xval NPaths Z dt r sigma S_0 k j
     S := (List.range NPaths).map fun k =>
       (List.range (NSteps + 1)).map fun j =>
         Real.exp (Xval NPaths Z dt r sigma S_0 k j) },
   draw.2)

/-- Entry `A[k, j]` of a matrix stored as a list of rows. -/
def entry (A : List (List ℝ)) (k j : ℕ) : ℝ := (A.getD k []).getD j 0

/-- Entry `t[j]` of a vector stored as a list. -/
def vecEntry (t : List ℝ) (j : ℕ) : ℝ := t.getD j 0

/-- The `paths` bundle returned to the caller (first component of the call). -/
noncomputable def runPaths (gauss : ℕ → ℕ → ℝ) (st : RNG)
    (NPaths NSteps : ℕ) (T r sigma S_0 : ℝ) : Paths :=
  (GeneratePaths gauss st NPaths NSteps T r sigma S_0).1

/-- The matrix of raw normal draws used by `GeneratePaths`: the stream of
seed `72` starting at position `0`. -/
def drawZ (gauss : ℕ → ℕ → ℝ) (NPaths NSteps : ℕ) : ℕ → ℕ → ℝ :=
  (npRandomNormal gauss (npRandomSeed 72) NPaths NSteps).1

lemma getD_map_range {α : Type} (f : ℕ → α) (d : α) {n k : ℕ} (h : k < n) :
    ((List.range n).map f).getD k d = f k := by
  rw [List.getD_eq_getElem _ _ (by simpa using h)]
  simp

lemma entry_X (gauss : ℕ → ℕ → ℝ) (st : RNG) (NPaths NSteps : ℕ)
    (T r sigma S_0 : ℝ) {k j : ℕ} (hk : k < NPaths) (hj : j < NSteps + 1) :
    entry (runPaths gauss st NPaths NSteps T r sigma S_0).X k j =
      Xval NPaths (drawZ gauss NPaths NSteps) (T / (NSteps : ℝ)) r sigma S_0 k j := by
  simp only [runPaths, GeneratePaths, entry, drawZ]
  rw [getD_map_range _ _ hk, getD_map_range _ _ hj]

lemma entry_S (gauss : ℕ → ℕ → ℝ) (st : RNG) (NPaths NSteps : ℕ)
    (T r sigma S_0 : ℝ) {k j : ℕ} (hk : k < NPaths) (hj : j < NSteps + 1) :
    entry (runPaths gauss st NPaths NSteps T r sigma S_0).S k j =
      Real.exp
        (Xval NPaths (drawZ gauss NPaths NSteps) (T / (NSteps : ℝ)) r sigma S_0 k j) := by
  simp only [runPaths, GeneratePaths, entry, drawZ]
  rw [getD_map_range _ _ hk, getD_map_range _ _ hj]

lemma vecEntry_time (gauss : ℕ → ℕ → ℝ) (st : RNG) (NPaths NSteps : ℕ)
    (T r sigma S_0 : ℝ) {j : ℕ} (hj : j < NSteps + 1) :
    vecEntry (runPaths gauss st NPaths NSteps T r sigma S_0).time j =
      timeVal (T / (NSteps : ℝ)) j := by
  simp only [runPaths, GeneratePaths, vecEntry]
  rw [getD_map_range _ _ hj]

lemma timeVal_eq_mul (dt : ℝ) : ∀ j : ℕ, timeVal dt j = j * dt := by
  intro j
  induction j with
  | zero => simp [timeVal]
  | succ i ih => rw [timeVal, ih]; push_cast; ring

/-- C4: `GeneratePaths` is deterministic: for a fixed input tuple, two
invocations return identical `time`, `X`, `S` arrays (and leave the
generator in the same state) regardless of the generator state left by
prior calls, because `np.random.seed(72)` resets the random source at the
start of each call. -/
theorem C4_deterministic (gauss : ℕ → ℕ → ℝ) (st1 st2 : RNG)
    (NPaths NSteps : ℕ) (T r sigma S_0 : ℝ) :
    GeneratePaths gauss st1 NPaths NSteps T r sigma S_0 =
      GeneratePaths gauss st2 NPaths NSteps T r sigma S_0 := rfl

/-- C5: for every valid input, `time` has length `NSteps + 1` and `X` and
`S` both have `NPaths` rows, each of length `NSteps + 1`. -/
theorem C5_shapes (gauss : ℕ → ℕ → ℝ) (st : RNG) (NPaths NSteps : ℕ)
    (T r sigma S_0 : ℝ) (_hP : 1 ≤ NPaths) (_hS : 1 ≤ NSteps) :
    (runPaths gauss st NPaths NSteps T r sigma S_0).time.length = NSteps + 1 ∧
    (runPaths gauss st NPaths NSteps T r sigma S_0).X.length = NPaths ∧
    (runPaths gauss st NPaths NSteps T r sigma S_0).S.length = NPaths ∧
    (∀ row ∈ (runPaths gauss st NPaths NSteps T r sigma S_0).X,
      row.length = NSteps + 1) ∧
    (∀ row ∈ (runPaths gauss st NPaths NSteps T r sigma S_0).S,
      row.length = NSteps + 1) := by
  refine ⟨by simp [runPaths, GeneratePaths], by simp [runPaths, GeneratePaths],
    by simp [runPaths, GeneratePaths], ?_, ?_⟩ <;>
  · intro row hrow
    simp only [runPaths, GeneratePaths, List.mem_map] at hrow
    obtain ⟨k, -, hk⟩ := hrow
    simp [← hk]

/-- Witness for C5 at `NPaths = NSteps = 1`, `T = 1`, `r = 0`, `sigma = 0`,
`S_0 = 1`. -/
theorem C5_shapes_witness :
    1 ≤ 1 ∧
    ((runPaths (fun _ _ => 0) ⟨0, 0⟩ 1 1 1 0 0 1).time.length = 1 + 1 ∧
     (runPaths (fun _ _ => 0) ⟨0, 0⟩ 1 1 1 0 0 1).X.length = 1 ∧
     (runPaths (fun _ _ => 0) ⟨0, 0⟩ 1 1 1 0 0 1).S.length = 1 ∧
     (∀ row ∈ (runPaths (fun _ _ => 0) ⟨0, 0⟩ 1 1 1 0 0 1).X, row.length = 1 + 1) ∧
     (∀ row ∈ (runPaths (fun _ _ => 0) ⟨0, 0⟩ 1 1 1 0 0 1).S, row.length = 1 + 1)) :=
  ⟨le_refl 1, C5_shapes (fun _ _ => 0) ⟨0, 0⟩ 1 1 1 0 0 1 (le_refl 1) (le_refl 1)⟩

/-- C1: counterexample.  The claim says an invalid configuration
(`NPaths ≤ 0` among others) raises a configuration error before any
array allocation rather than silently returning empty or malformed
arrays.  The source contains no validation and no raise: the call with
`NPaths = 0` (and the driver-like values `NSteps = 3`, `T = 1`,
`r = 0.05`, `sigma = 0.4`, `S_0 = 100`) completes and silently returns
a bundle whose `X` and `S` matrices are empty while `time` still has
4 entries. -/
theorem C1_counterexample :
    (runPaths (fun _ _ => 0) ⟨0, 0⟩ 0 3 1 (5 / 100) (2 / 5) 100).X = [] ∧
    (runPaths (fun _ _ => 0) ⟨0, 0⟩ 0 3 1 (5 / 100) (2 / 5) 100).S = [] ∧
    (runPaths (fun _ _ => 0) ⟨0, 0⟩ 0 3 1 (5 / 100) (2 / 5) 100).time.length = 4 := by
  refine ⟨by simp [runPaths, GeneratePaths], by simp [runPaths, GeneratePaths],
    by simp [runPaths, GeneratePaths]⟩

/-- C1 (amended): `GeneratePaths` does not raise a configuration error for
the invalid configuration `NPaths = 0`: for any `NSteps ≥ 1`, the call
completes and silently returns a bundle with empty `X` and `S` matrices
and a full `time` grid of length `NSteps + 1`.  (The restriction
`NSteps ≥ 1` keeps the statement on inputs where the source reaches its
return: at `NSteps = 0` the source instead fails at `dt = T / float(NSteps)`
with an unhandled `ZeroDivisionError` — after the arrays are allocated and
still never the claimed pre-allocation configuration error — a path the
total real division of the embedding does not represent.) -/
theorem C1_no_validation (gauss : ℕ → ℕ → ℝ) (st : RNG) (NSteps : ℕ)
    (_hS : 1 ≤ NSteps) (T r sigma S_0 : ℝ) :
    (runPaths gauss st 0 NSteps T r sigma S_0).X = [] ∧
    (runPaths gauss st 0 NSteps T r sigma S_0).S = [] ∧
    (runPaths gauss st 0 NSteps T r sigma S_0).time.length = NSteps + 1 := by
  refine ⟨by simp [runPaths, GeneratePaths], by simp [runPaths, GeneratePaths],
    by simp [runPaths, GeneratePaths]⟩

/-- Witness for the amended C1 at `NPaths = 0`, `NSteps = 2`, `T = 1`,
`r = 0.05`, `sigma = 0.4`, `S_0 = 100`. -/
theorem C1_no_validation_witness :
    1 ≤ 2 ∧
    ((runPaths (fun _ _ => 0) ⟨0, 0⟩ 0 2 1 (5 / 100) (2 / 5) 100).X = [] ∧
     (runPaths (fun _ _ => 0) ⟨0, 0⟩ 0 2 1 (5 / 100) (2 / 5) 100).S = [] ∧
     (runPaths (fun _ _ => 0) ⟨0, 0⟩ 0 2 1 (5 / 100) (2 / 5) 100).time.length = 2 + 1) :=
  ⟨by norm_num,
    C1_no_validation (fun _ _ => 0) ⟨0, 0⟩ 2 (by norm_num) 1 (5 / 100) (2 / 5) 100⟩

/-- C6: for every valid input and every path row `k`, the initial column
satisfies `X[k, 0] = ln S_0` and `S[k, 0] = exp (ln S_0) = S_0`. -/
theorem C6_initial_condition (gauss : ℕ → ℕ → ℝ) (st : RNG)
    (NPaths NSteps : ℕ) (T r sigma S_0 : ℝ)
    (_hP : 1 ≤ NPaths) (_hS : 1 ≤ NSteps) (_hT : 0 < T) (_hsig : 0 ≤ sigma)
    (hS0 : 0 < S_0) {k : ℕ} (hk : k < NPaths) :
    entry (runPaths gauss st NPaths NSteps T r sigma S_0).X k 0 =
      Real.log S_0 ∧
    entry (runPaths gauss st NPaths NSteps T r sigma S_0).S k 0 = S_0 := by
  rw [entry_X gauss st NPaths NSteps T r sigma S_0 hk (Nat.succ_pos NSteps),
    entry_S gauss st NPaths NSteps T r sigma S_0 hk (Nat.succ_pos NSteps)]
  exact ⟨rfl, Real.exp_log hS0⟩

/-- Witness for C6 at `NPaths = NSteps = 1`, `T = 1`, `r = 0`, `sigma = 0`,
`S_0 = 100`, row `k = 0`. -/
theorem C6_initial_condition_witness :
    (0 : ℝ) < 100 ∧ 0 < 1 ∧
    (entry (runPaths (fun _ _ => 0) ⟨0, 0⟩ 1 1 1 0 0 100).X 0 0 =
      Real.log 100 ∧
     entry (runPaths (fun _ _ => 0) ⟨0, 0⟩ 1 1 1 0 0 100).S 0 0 = 100) :=
  ⟨by norm_num, Nat.one_pos,
    C6_initial_condition (fun _ _ => 0) ⟨0, 0⟩ 1 1 1 0 0 100 (le_refl 1)
      (le_refl 1) (by norm_num) (le_refl 0) (by norm_num) Nat.one_pos⟩

/-- C7: for every valid input, the time grid satisfies `time[0] = 0`,
`time[NSteps] = T`, uniform spacing `time[j+1] - time[j] = dt = T / NSteps`,
and strict monotonicity between consecutive grid points. -/
theorem C7_time_grid (gauss : ℕ → ℕ → ℝ) (st : RNG) (NPaths NSteps : ℕ)
    (T r sigma S_0 : ℝ) (hS : 1 ≤ NSteps) (hT : 0 < T) :
    vecEntry (runPaths gauss st NPaths NSteps T r sigma S_0).time 0 = 0 ∧
    vecEntry (runPaths gauss st NPaths NSteps T r sigma S_0).time NSteps = T ∧
    (∀ j < NSteps,
      vecEntry (runPaths gauss st NPaths NSteps T r sigma S_0).time (j + 1) -
        vecEntry (runPaths gauss st NPaths NSteps T r sigma S_0).time j =
          T / (NSteps : ℝ)) ∧
    (∀ j < NSteps,
      vecEntry (runPaths gauss st NPaths NSteps T r sigma S_0).time j <
        vecEntry (runPaths gauss st NPaths NSteps T r sigma S_0).time (j + 1)) := by
  have hN : (NSteps : ℝ) ≠ 0 := Nat.cast_ne_zero.mpr (Nat.one_le_iff_ne_zero.mp hS)
  have hdt : 0 < T / (NSteps : ℝ) := by
    apply div_pos hT
    exact_mod_cast Nat.lt_of_lt_of_le Nat.zero_lt_one hS
  refine ⟨?_, ?_, ?_, ?_⟩
  · rw [vecEntry_time gauss st NPaths NSteps T r sigma S_0 (Nat.succ_pos NSteps)]
    rfl
  · rw [vecEntry_time gauss st NPaths NSteps T r sigma S_0 (Nat.lt_succ_self NSteps)]
    rw [timeVal_eq_mul]
    field_simp
  · intro j hj
    rw [vecEntry_time gauss st NPaths NSteps T r sigma S_0
        (Nat.succ_lt_succ hj),
      vecEntry_time gauss st NPaths NSteps T r sigma S_0
        (Nat.lt_succ_of_lt hj)]
    rw [timeVal]
    ring
  · intro j hj
    rw [vecEntry_time gauss st NPaths NSteps T r sigma S_0
        (Nat.succ_lt_succ hj),
      vecEntry_time gauss st NPaths NSteps T r sigma S_0
        (Nat.lt_succ_of_lt hj)]
    rw [timeVal]
    linarith

/-- Witness for C7 at `NPaths = 1`, `NSteps = 2`, `T = 1`, `r = 0`,
`sigma = 0`, `S_0 = 1`. -/
theorem C7_time_grid_witness :
    1 ≤ 2 ∧ (0 : ℝ) < 1 ∧
    (vecEntry (runPaths (fun _ _ => 0) ⟨0, 0⟩ 1 2 1 0 0 1).time 0 = 0 ∧
     vecEntry (runPaths (fun _ _ => 0) ⟨0, 0⟩ 1 2 1 0 0 1).time 2 = 1 ∧
     (∀ j < 2,
       vecEntry (runPaths (fun _ _ => 0) ⟨0, 0⟩ 1 2 1 0 0 1).time (j + 1) -
         vecEntry (runPaths (fun _ _ => 0) ⟨0, 0⟩ 1 2 1 0 0 1).time j =
           1 / ((2 : ℕ) : ℝ)) ∧
     (∀ j < 2,
       vecEntry (runPaths (fun _ _ => 0) ⟨0, 0⟩ 1 2 1 0 0 1).time j <
         vecEntry (runPaths (fun _ _ => 0) ⟨0, 0⟩ 1 2 1 0 0 1).time (j + 1))) :=
  ⟨by norm_num, by norm_num,
    C7_time_grid (fun _ _ => 0) ⟨0, 0⟩ 1 2 1 0 0 1 (by norm_num) (by norm_num)⟩

lemma npMean_center_div (n : ℕ) (hn : n ≠ 0) (v : ℕ → ℝ) (c : ℝ) :
    npMean n (fun k => (v k - npMean n v) / c) = 0 := by
  have hcast : (n : ℝ) ≠ 0 := Nat.cast_ne_zero.mpr hn
  unfold npMean
  rw [← Finset.sum_div, Finset.sum_sub_distrib, Finset.sum_const,
    Finset.card_range, nsmul_eq_mul]
  field_simp

lemma npStd_center_div (n : ℕ) (hn : n ≠ 0) (v : ℕ → ℝ)
    (hstd : npStd n v ≠ 0) :
    npStd n (fun k => (v k - npMean n v) / npStd n v) = 1 := by
  have hcast : (n : ℝ) ≠ 0 := Nat.cast_ne_zero.mpr hn
  have hVnonneg :
      0 ≤ (∑ k ∈ Finset.range n, (v k - npMean n v) ^ 2) / n := by positivity
  have hsq : (npStd n v) ^ 2 =
      (∑ k ∈ Finset.range n, (v k - npMean n v) ^ 2) / n :=
    Real.sq_sqrt hVnonneg
  have hVne :
      (∑ k ∈ Finset.range n, (v k - npMean n v) ^ 2) / n ≠ 0 := by
    intro h0
    exact hstd (by rw [npStd, h0, Real.sqrt_zero])
  rw [npStd, npMean_center_div n hn v (npStd n v)]
  simp only [sub_zero, div_pow]
  rw [← Finset.sum_div, div_div, mul_comm, ← div_div, hsq, div_self hVne,
    Real.sqrt_one]

lemma npMean_Zcol (n : ℕ) (hn : 1 < n) (Z : ℕ → ℕ → ℝ) (i : ℕ) :
    npMean n (fun k => Zcol n Z i k) = 0 := by
  simp only [Zcol, if_pos hn]
  exact npMean_center_div n (by omega) (fun m => Z m i) _

lemma npStd_Zcol (n : ℕ) (hn : 1 < n) (Z : ℕ → ℕ → ℝ) (i : ℕ)
    (hstd : npStd n (fun m => Z m i) ≠ 0) :
    npStd n (fun k => Zcol n Z i k) = 1 := by
  simp only [Zcol, if_pos hn]
  exact npStd_center_div n (by omega) (fun m => Z m i) hstd

/-- C3: for `NPaths > 1` the corrected column `Z[:,i]` used in the advance
step has empirical mean exactly `0` and empirical standard deviation
exactly `1` (provided the raw column is not degenerate, i.e. its standard
deviation is nonzero — almost surely the case for normal draws); for
`NPaths = 1` the correction is skipped and the raw draw is used. -/
theorem C3_moment_matching (NPaths : ℕ) (Z : ℕ → ℕ → ℝ) (i : ℕ) :
    (1 < NPaths → npStd NPaths (fun m => Z m i) ≠ 0 →
      npMean NPaths (fun k => Zcol NPaths Z i k) = 0 ∧
      npStd NPaths (fun k => Zcol NPaths Z i k) = 1) ∧
    (NPaths = 1 → ∀ k, Zcol NPaths Z i k = Z k i) := by
  constructor
  · intro hn hstd
    exact ⟨npMean_Zcol NPaths hn Z i, npStd_Zcol NPaths hn Z i hstd⟩
  · intro h1 k
    subst h1
    simp [Zcol]

/-- Witness for C3 at `NPaths = 2` with the column `(1, -1)`: the raw
standard deviation is `1 ≠ 0` and the corrected column has mean `0` and
standard deviation `1`. -/
theorem C3_moment_matching_witness :
    (1 < 2 ∧ npStd 2 (fun m => (fun k _ : ℕ => if k = 0 then (1 : ℝ) else -1) m 0) ≠ 0) ∧
    (npMean 2 (fun k => Zcol 2 (fun k _ : ℕ => if k = 0 then (1 : ℝ) else -1) 0 k) = 0 ∧
     npStd 2 (fun k => Zcol 2 (fun k _ : ℕ => if k = 0 then (1 : ℝ) else -1) 0 k) = 1) := by
  have hstd : npStd 2 (fun m => (fun k _ : ℕ => if k = 0 then (1 : ℝ) else -1) m 0) ≠ 0 := by
    unfold npStd npMean
    norm_num [Finset.sum_range_succ]
  exact ⟨⟨by norm_num, hstd⟩,
    (C3_moment_matching 2 (fun k _ : ℕ => if k = 0 then (1 : ℝ) else -1) 0).1
      (by norm_num) hstd⟩

/-- C2: for every valid input, every path row `k` and step `i < NSteps`,
the returned matrix satisfies the advance law
`X[k, i+1] = X[k, i] + (r - 0.5 sigma^2) dt + sigma sqrt(dt) Z[k, i]`
with `dt = T / NSteps` and `Z[:, i]` the drawn normal column, standardized
when `NPaths > 1` (the `Zcol` of the embedding). -/
theorem C2_advance_step (gauss : ℕ → ℕ → ℝ) (st : RNG) (NPaths NSteps : ℕ)
    (T r sigma S_0 : ℝ) (_hP : 1 ≤ NPaths) (_hS : 1 ≤ NSteps) (_hT : 0 < T)
    (_hsig : 0 ≤ sigma) (_hS0 : 0 < S_0) {k i : ℕ} (hk : k < NPaths)
    (hi : i < NSteps) :
    entry (runPaths gauss st NPaths NSteps T r sigma S_0).X k (i + 1) =
      entry (runPaths gauss st NPaths NSteps T r sigma S_0).X k i +
        (r - 0.5 * sigma ^ 2) * (T / (NSteps : ℝ)) +
        sigma * Real.sqrt (T / (NSteps : ℝ)) *
          Zcol NPaths (drawZ gauss NPaths NSteps) i k := by
  rw [entry_X gauss st NPaths NSteps T r sigma S_0 hk (by omega),
    entry_X gauss st NPaths NSteps T r sigma S_0 hk (by omega)]
  rfl

/-- Witness for C2 at `NPaths = NSteps = 1`, `T = 1`, `r = 0`, `sigma = 0`,
`S_0 = 1`, row `k = 0`, step `i = 0`. -/
theorem C2_advance_step_witness :
    1 ≤ 1 ∧ (0 : ℝ) < 1 ∧
    entry (runPaths (fun _ _ => 0) ⟨0, 0⟩ 1 1 1 0 0 1).X 0 (0 + 1) =
      entry (runPaths (fun _ _ => 0) ⟨0, 0⟩ 1 1 1 0 0 1).X 0 0 +
        (0 - 0.5 * 0 ^ 2) * (1 / ((1 : ℕ) : ℝ)) +
        0 * Real.sqrt (1 / ((1 : ℕ) : ℝ)) *
          Zcol 1 (drawZ (fun _ _ => 0) 1 1) 0 0 :=
  ⟨le_refl 1, by norm_num,
    C2_advance_step (fun _ _ => 0) ⟨0, 0⟩ 1 1 1 0 0 1 (le_refl 1) (le_refl 1)
      (by norm_num) (le_refl 0) (by norm_num) Nat.one_pos Nat.one_pos⟩

lemma Xval_sigma_zero (NPaths : ℕ) (Z : ℕ → ℕ → ℝ) (dt r S_0 : ℝ) (k : ℕ) :
    ∀ j : ℕ, Xval NPaths Z dt r 0 S_0 k j = Real.log S_0 + r * timeVal dt j := by
  intro j
  induction j with
  | zero => rw [Xval, timeVal]; ring
  | succ i ih => rw [Xval, ih, timeVal]; ring

/-- C8: with `sigma = 0` every entry of `X` equals the deterministic drift
path `ln S_0 + r * time[j]` (in particular the standardization division
never touches the result), and all rows of `X` are identical. -/
theorem C8_sigma_zero (gauss : ℕ → ℕ → ℝ) (st : RNG) (NPaths NSteps : ℕ)
    (T r S_0 : ℝ) (_hP : 1 ≤ NPaths) (_hS : 1 ≤ NSteps) (_hT : 0 < T)
    (_hS0 : 0 < S_0) :
    (∀ k < NPaths, ∀ j < NSteps + 1,
      entry (runPaths gauss st NPaths NSteps T r 0 S_0).X k j =
        Real.log S_0 +
          r * vecEntry (runPaths gauss st NPaths NSteps T r 0 S_0).time j) ∧
    (∀ k1 < NPaths, ∀ k2 < NPaths, ∀ j < NSteps + 1,
      entry (runPaths gauss st NPaths NSteps T r 0 S_0).X k1 j =
        entry (runPaths gauss st NPaths NSteps T r 0 S_0).X k2 j) := by
  have hform : ∀ k < NPaths, ∀ j < NSteps + 1,
      entry (runPaths gauss st NPaths NSteps T r 0 S_0).X k j =
        Real.log S_0 +
          r * vecEntry (runPaths gauss st NPaths NSteps T r 0 S_0).time j := by
    intro k hk j hj
    rw [entry_X gauss st NPaths NSteps T r 0 S_0 hk hj,
      vecEntry_time gauss st NPaths NSteps T r 0 S_0 hj]
    exact Xval_sigma_zero NPaths (drawZ gauss NPaths NSteps)
      (T / (NSteps : ℝ)) r S_0 k j
  refine ⟨hform, ?_⟩
  intro k1 hk1 k2 hk2 j hj
  rw [hform k1 hk1 j hj, hform k2 hk2 j hj]

/-- Witness for C8 at `NPaths = 2`, `NSteps = 2`, `T = 1`, `r = 0.05`,
`S_0 = 100` (the concrete scenario of the spec). -/
theorem C8_sigma_zero_witness :
    1 ≤ 2 ∧ (0 : ℝ) < 100 ∧
    ((∀ k < 2, ∀ j < 2 + 1,
      entry (runPaths (fun _ _ => 0) ⟨0, 0⟩ 2 2 1 (5 / 100) 0 100).X k j =
        Real.log 100 +
          5 / 100 *
            vecEntry (runPaths (fun _ _ => 0) ⟨0, 0⟩ 2 2 1 (5 / 100) 0 100).time j) ∧
    (∀ k1 < 2, ∀ k2 < 2, ∀ j < 2 + 1,
      entry (runPaths (fun _ _ => 0) ⟨0, 0⟩ 2 2 1 (5 / 100) 0 100).X k1 j =
        entry (runPaths (fun _ _ => 0) ⟨0, 0⟩ 2 2 1 (5 / 100) 0 100).X k2 j)) :=
  ⟨by norm_num, by norm_num,
    C8_sigma_zero (fun _ _ => 0) ⟨0, 0⟩ 2 2 1 (5 / 100) 100 (by norm_num)
      (by norm_num) (by norm_num) (by norm_num)⟩

/-- C9: the returned `S` is the element-wise exponential of the returned
`X`, and consequently every entry of `S` is strictly positive. -/
theorem C9_exp_positivity (gauss : ℕ → ℕ → ℝ) (st : RNG) (NPaths NSteps : ℕ)
    (T r sigma S_0 : ℝ) (_hP : 1 ≤ NPaths) (_hS : 1 ≤ NSteps) (_hT : 0 < T)
    (_hsig : 0 ≤ sigma) (_hS0 : 0 < S_0) :
    (runPaths gauss st NPaths NSteps T r sigma S_0).S =
      (runPaths gauss st NPaths NSteps T r sigma S_0).X.map
        (fun row => row.map Real.exp) ∧
    (∀ row ∈ (runPaths gauss st NPaths NSteps T r sigma S_0).S,
      ∀ x ∈ row, 0 < x) := by
  constructor
  · simp [runPaths, GeneratePaths, List.map_map, Function.comp]
  · intro row hrow x hx
    simp only [runPaths, GeneratePaths, List.mem_map] at hrow
    obtain ⟨k, -, hk⟩ := hrow
    rw [← hk] at hx
    simp only [List.mem_map] at hx
    obtain ⟨j, -, hj⟩ := hx
    rw [← hj]
    exact Real.exp_pos _

/-- Witness for C9 at `NPaths = NSteps = 1`, `T = 1`, `r = 0`, `sigma = 0`,
`S_0 = 1`. -/
theorem C9_exp_positivity_witness :
    1 ≤ 1 ∧ (0 : ℝ) < 1 ∧
    ((runPaths (fun _ _ => 0) ⟨0, 0⟩ 1 1 1 0 0 1).S =
      (runPaths (fun _ _ => 0) ⟨0, 0⟩ 1 1 1 0 0 1).X.map
        (fun row => row.map Real.exp) ∧
    (∀ row ∈ (runPaths (fun _ _ => 0) ⟨0, 0⟩ 1 1 1 0 0 1).S,
      ∀ x ∈ row, 0 < x)) :=
  ⟨le_refl 1, by norm_num,
    C9_exp_positivity (fun _ _ => 0) ⟨0, 0⟩ 1 1 1 0 0 1 (le_refl 1) (le_refl 1)
      (by norm_num) (le_refl 0) (by norm_num)⟩

/-- C10: the moment-matching branch is guarded only by `NPaths > 1`, not by
the column's standard deviation being nonzero.  With the constant draw
stream (`gauss` constantly `1`), `NPaths = 2` and `NSteps = 1`, the drawn
column is constant, its standard deviation is `0`, yet the guard holds and
the standardization computes `(Z[k,0] - mean) / 0`; the call still returns
full-shape arrays rather than raising an error.  (In IEEE arithmetic this
`0/0` is NaN, which then propagates into `X` and `S`; the real-number
embedding uses the total division of `ℝ`, so the zero-divisor division and
the absence of any error path are what is certified here.) -/
theorem C10_unguarded_zero_std :
    1 < 2 ∧
    npStd 2 (fun m => drawZ (fun _ _ => 1) 2 1 m 0) = 0 ∧
    (∀ k, Zcol 2 (drawZ (fun _ _ => 1) 2 1) 0 k =
      (drawZ (fun _ _ => 1) 2 1 k 0 -
        npMean 2 (fun m => drawZ (fun _ _ => 1) 2 1 m 0)) / 0) ∧
    (runPaths (fun _ _ => 1) ⟨0, 0⟩ 2 1 1 0 1 1).X.length = 2 ∧
    (∀ row ∈ (runPaths (fun _ _ => 1) ⟨0, 0⟩ 2 1 1 0 1 1).X,
      row.length = 2) := by
  have hdraw : ∀ m i : ℕ, drawZ (fun _ _ => (1 : ℝ)) 2 1 m i = 1 := by
    intro m i
    rfl
  have hstd0 : npStd 2 (fun m => drawZ (fun _ _ => (1 : ℝ)) 2 1 m 0) = 0 := by
    simp only [hdraw]
    unfold npStd npMean
    norm_num [Finset.sum_range_succ]
  refine ⟨by norm_num, hstd0, ?_, by simp [runPaths, GeneratePaths], ?_⟩
  · intro k
    rw [Zcol, if_pos (by norm_num), hstd0]
  · intro row hrow
    simp only [runPaths, GeneratePaths, List.mem_map] at hrow
    obtain ⟨k, -, hk⟩ := hrow
    simp [← hk]

end GBM
